import Mathlib

/-!
Formal model of SLATE's band-to-tridiagonal bulge chasing, of
`internal::unmlq`, and of the GPU-aware-MPI configuration flag.

This file gives a shallow embedding, in Lean, of three pieces of the SLATE
repository and proves properties of them:

* `src/hb2td.cc` — the multithreaded bulge-chasing reduction of a band
  Hermitian matrix to tridiagonal form (`hb2td_step`, `hb2td_run`, and the
  `hb2td` specialization).  The per-step index arithmetic is embedded as pure
  functions on `Int`; the numeric tile kernels (`hebr1/2/3`) are opaque tile
  operations, so a step is modelled by the *effects* it has: which reflector
  keys it probes and inserts and which slices of `A` it hands to the kernels.
  The multithreaded run loop is embedded as a small-step transition system:
  each worker thread holds the (pure, precomputed) list of `(sweep, step)`
  pairs its loop nest visits, and a transition fires a thread's next pair only
  when the progress-table conditions of the two busy-wait loops hold.

* `src/internal/internal_unmlq.cc` — the blocked-Householder update.  The
  claims about it concern control flow, assertions, and workspace-tile
  lifetime, not kernel numerics, so the call is embedded as a function from
  the operand shapes and the tile-locality oracle to the ordered list of
  mutating effects it performs (`none` when a fatal assertion fires).

* `include/slate/config.hh` — the `GPU_Aware_MPI` lazily-initialized
  singleton, embedded as an explicit state machine over query/set operations.

C++ `int64_t` arithmetic is embedded as `Int`; C++ `/` and `%` truncate
toward zero, which is `Int.tdiv` / `Int.tmod` (Lean's `/` on `Int` is not
the same operation on negative operands, so the truncating forms are spelled
out wherever the C++ source divides).
-/

namespace Slate

/-- Modelled from the spec: `ceildiv`, used by `hb2td_run` and the `hb2td`
specialization, is defined in `internal/internal_util.hh`, a header that is
not among the sources here.  The spec describes it as ceiling division
(`pass_size = ceil(thread_count/3)`, and step counts `2*ceil(...)-1`).
For a positive divisor `(x + y - 1) / y` with floor division is exactly
`⌈x / y⌉`; with Lean's total-division convention a zero divisor yields `0`. -/
def ceildiv (x y : Int) : Int := (x + y - 1) / y

/-! ## hb2td_step: per-step task classification and coordinates

From `hb2td.cc` lines 86-141.  `task = step == 0 ? 0 : (step+1)%2 + 1`,
`block = step/2`, and the `i`, `j` assigned in each `switch` case. -/

/-- Line 91 of hb2td.cc: `int64_t task = step == 0 ? 0 : (step+1)%2 + 1;`. -/
def hb2tdTask (step : Int) : Int :=
  if step = 0 then 0 else Int.tmod (step + 1) 2 + 1

/-- Line 92 of hb2td.cc: `int64_t block = step/2;`. -/
def hb2tdBlock (step : Int) : Int := Int.tdiv step 2

/-- The row coordinate `i` assigned in the `switch` case selected by the
task number (hb2td.cc lines 99, 112, 129). -/
def hb2tdI (band sweep step : Int) : Int :=
  if hb2tdTask step = 0 then sweep
  else if hb2tdTask step = 1 then (hb2tdBlock step + 1) * (band - 1) + 1 + sweep
  else hb2tdBlock step * (band - 1) + 1 + sweep

/-- The column coordinate `j` assigned in the `switch` case selected by the
task number (hb2td.cc lines 100, 113, 130): `j = block*(band-1)+1+sweep` for
tasks 1 and 2, `j = sweep` for task 0. -/
def hb2tdJ (band sweep step : Int) : Int :=
  if hb2tdTask step = 0 then sweep
  else hb2tdBlock step * (band - 1) + 1 + sweep

/-- The observable effects of one `hb2td_step` call: the reflector-store keys
it reads (the `v`/`v1` consumed by `hebr2`/`hebr3`), the keys it inserts (the
reflector produced into by `hebr1`/`hebr2`), and the slices of `A` handed to
the numeric kernel.  A slice is recorded as `(row1, row2, col1, col2)`. -/
structure StepAction where
  reads : List (Int × Int)
  writes : List (Int × Int)
  slices : List (Int × Int × Int × Int)
  deriving DecidableEq, Repr

/-- The empty action: the step touched nothing. -/
def StepAction.noop : StepAction := ⟨[], [], []⟩

/-- Effect-level embedding of `hb2td_step` (hb2td.cc lines 86-141), with
`n = A.n()`.  Each `switch` case is guarded by `i < A.n() && j < A.n()`;
outside that range the case does nothing.  Task 0 inserts the reflector at
key `{i+1, j}` and runs `hebr1` on `A.slice(i, min(i+band-1, n-1))`; task 1
reads the key `{i-(band-1), step == 1 ? j-1 : j-(band-1)}`, inserts at
`{i, j}`, and runs `hebr2` on the off-diagonal slice; task 2 reads the key
`{i, j-(band-1)}` and runs `hebr3` on the diagonal slice. -/
def hb2td_step (n band sweep step : Int) : StepAction :=
  if hb2tdTask step = 0 then
    if hb2tdI band sweep step < n ∧ hb2tdJ band sweep step < n then
      ⟨[], [(hb2tdI band sweep step + 1, hb2tdJ band sweep step)],
       [(hb2tdI band sweep step, min (hb2tdI band sweep step + band - 1) (n - 1),
         hb2tdI band sweep step, min (hb2tdI band sweep step + band - 1) (n - 1))]⟩
    else StepAction.noop
  else if hb2tdTask step = 1 then
    if hb2tdI band sweep step < n ∧ hb2tdJ band sweep step < n then
      ⟨[(hb2tdI band sweep step - (band - 1),
         if step = 1 then hb2tdJ band sweep step - 1
         else hb2tdJ band sweep step - (band - 1))],
       [(hb2tdI band sweep step, hb2tdJ band sweep step)],
       [(hb2tdI band sweep step, min (hb2tdI band sweep step + band - 2) (n - 1),
         hb2tdJ band sweep step, min (hb2tdJ band sweep step + band - 2) (n - 1))]⟩
    else StepAction.noop
  else
    if hb2tdI band sweep step < n ∧ hb2tdJ band sweep step < n then
      ⟨[(hb2tdI band sweep step, hb2tdJ band sweep step - (band - 1))], [],
       [(hb2tdI band sweep step, min (hb2tdI band sweep step + band - 2) (n - 1),
         hb2tdI band sweep step, min (hb2tdI band sweep step + band - 2) (n - 1))]⟩
    else StepAction.noop

/-- The earlier step of the same sweep whose inserted reflector key a step
`s ≥ 1` consumes: step `s-1` for even `s` (task 2 consumes the reflector task
1 just produced), step `s-2` for odd `s ≥ 3`, and step `0` for `s = 1`. -/
def hb2tdProducer (s : Int) : Int :=
  if s % 2 = 0 then s - 1 else if s = 1 then 0 else s - 2

/-! ## hb2td_run: the multithreaded scheduling loop

From `hb2td.cc` lines 174-220.  The loop nest of one worker thread is pure
control flow over `Int` indices, so the exact ordered list of `(sweep, step)`
pairs a thread visits (those passing the `step < nsteps_sweep` test) is
computed below as `threadSchedule`.  The busy-wait synchronization is
modelled by a transition relation: a thread's next pair may fire only when
the progress table satisfies the two wait conditions of lines 197-207. -/

/-- The step count of a sweep, `2*ceildiv(diag_len - 1 - sweep, band-1) - 1`
(`nsteps_sweep`, `nsteps_last` and `nsteps_pass` in hb2td.cc lines 189,
194-195 are this expression at `sweep`, `sweep-1` and `pass`). -/
def nsteps (diag_len band sweep : Int) : Int :=
  2 * ceildiv (diag_len - 1 - sweep) (band - 1) - 1

/-- Line 191 of hb2td.cc:
`step_begin = (thread_rank - start_thread + thread_size) % thread_size`;
C++ `%` is `Int.tmod`. -/
def stepBegin (t st T : Int) : Int := Int.tmod (t - st + T) T

/-- The values taken by `for (step = step_begin; step < np; step += T)`:
`sb, sb+T, ...` strictly below `np`. -/
def stepsList (sb np T : Int) : List Int :=
  (List.range ((np - sb + T - 1) / T).toNat).map (fun (i : Nat) => sb + T * (i : Int))

/-- The values taken by `for (sweep = pass; sweep < sweep_end; ++sweep)`. -/
def sweepsList (pass sweep_end : Int) : List Int :=
  (List.range (sweep_end - pass).toNat).map (fun (i : Nat) => pass + (i : Int))

/-- The `(sweep, step)` pairs visited by one thread within one pass, in
visit order: the outer loop walks `step` from `step_begin` in strides of
`thread_size` below `nsteps_pass`, the inner loop walks `sweep` over the
pass, and the body runs only `if (step < nsteps_sweep)`
(hb2td.cc lines 186-197). -/
def passPairs (dl band ps T t st pass : Int) : List (Int × Int) :=
  (stepsList (stepBegin t st T) (nsteps dl band pass) T).flatMap fun s =>
    ((sweepsList pass (min (pass + ps) (dl - 2))).filter fun k =>
      decide (s < nsteps dl band k)).map fun k => (k, s)

/-- Remaining passes of the pass loop, threading the running
`start_thread = (start_thread + nsteps_pass) % thread_size`
(hb2td.cc line 218). -/
def schedFrom (dl band ps T t : Int) : List Int → Int → List (Int × Int)
  | [], _ => []
  | pass :: rest, st =>
    passPairs dl band ps T t st pass ++
      schedFrom dl band ps T t rest (Int.tmod (st + nsteps dl band pass) T)

/-- The pass indices `0, ps, 2*ps, ...` strictly below `diag_len - 2`
(hb2td.cc line 186). -/
def passList (dl ps : Int) : List Int :=
  (List.range (ceildiv (dl - 2) ps).toNat).map (fun (j : Nat) => ps * (j : Int))

/-- The full ordered `(sweep, step)` visit list of thread `t` in
`hb2td_run`, with `start_thread` starting at 0. -/
def threadSchedule (dl band ps T t : Int) : List (Int × Int) :=
  schedFrom dl band ps T t (passList dl ps) 0

/-- Shared state of the bulge-chasing pipeline: the progress table (one
counter per sweep), the pairs each worker thread has not yet executed, and
the executed pairs in execution order. -/
structure HbState where
  progress : Int → Int
  threads : List (List (Int × Int))
  events : List (Int × Int)

/-- Line 213 of hb2td.cc: `progress.at(sweep).store(step)`. -/
def updProg (p : Int → Int) (k s : Int) : Int → Int :=
  fun j => if j = k then s else p j

/-- One scheduling transition of the pipeline: some thread whose next pair
is `(k, s)` has passed both busy-wait loops of hb2td.cc lines 197-207 —
when `sweep > 0` it has observed
`progress.at(sweep-1) >= min(step+2, nsteps_last-1)`, and when `step > 0` it
has observed `progress.at(sweep) >= step-1` — and then runs `hb2td_step`
and stores `step` into `progress.at(sweep)`. -/
inductive HbRunStep (dl band : Int) : HbState → HbState → Prop where
  | exec (p : Int → Int) (pre post : List (List (Int × Int)))
      (rest : List (Int × Int)) (k s : Int) (ev : List (Int × Int))
      (hcross : 0 < k → min (s + 2) (nsteps dl band (k - 1) - 1) ≤ p (k - 1))
      (hintra : 0 < s → s - 1 ≤ p k) :
      HbRunStep dl band
        ⟨p, pre ++ ((k, s) :: rest) :: post, ev⟩
        ⟨updProg p k s, pre ++ rest :: post, ev ++ [(k, s)]⟩

/-- The initial state built by the `hb2td` specialization (hb2td.cc lines
227-266): every progress counter stores `-1`, `thread_size` workers each
hold their full schedule, nothing has executed. -/
def hbInit (dl band ps T : Int) : HbState :=
  ⟨fun _ => -1,
   (List.range T.toNat).map (fun (t : Nat) => threadSchedule dl band ps T (t : Int)),
   []⟩

/-- Reachability from the initial pipeline state by scheduling transitions. -/
def HbReach (dl band ps T : Int) (st : HbState) : Prop :=
  Relation.ReflTransGen (HbRunStep dl band) (hbInit dl band ps T) st

/-- The pairs not yet executed, over all threads. -/
def pendingPairs (st : HbState) : List (Int × Int) := st.threads.flatten

/-- The `start_thread` value in effect after a list of passes has been
handled (hb2td.cc lines 183, 218). -/
def stAfter (dl band T : Int) : List Int → Int → Int
  | [], st => st
  | pass :: rest, st => stAfter dl band T rest (Int.tmod (st + nsteps dl band pass) T)

/-- Pipeline invariant: the not-yet-executed pairs are pairwise distinct,
every pending step index is nonnegative, and every pending step index lies
strictly above its sweep's progress counter. -/
def HbInv (st : HbState) : Prop :=
  (pendingPairs st).Nodup ∧
    ∀ p ∈ pendingPairs st, 0 ≤ p.2 ∧ st.progress p.1 < p.2

/-! ## internal::unmlq

From `internal/internal_unmlq.cc` lines 74-452.  The claims settled here
concern the assertions, the empty-local-share early return, and the
workspace-tile lifetime, none of which depend on the numeric content of
tiles.  The call is therefore embedded as a function from the operand
shapes and the tile-locality oracle to the ordered list of mutating
effects it performs; a fatal `assert` is `none`.  `W` is created congruent
to `C` (same tile grid, by the `assert`s, and same distribution, per the
callers), so one locality oracle serves both. -/

/-- The multiplication side, `Side::Left` / `Side::Right`. -/
inductive USide where
  | left
  | right
  deriving DecidableEq, Repr

/-- A mutating effect of one `unmlq` call, at tile granularity.  Regions
are `(row1, row2, col1, col2)` inclusive tile ranges. -/
inductive UEffect where
  | insertW (i j : Int)
  | eraseW (i j : Int)
  | fetchC (i1 i2 j1 j2 : Int)
  | writeW (i1 i2 j1 j2 : Int)
  | writeC (i1 i2 j1 j2 : Int)
  deriving DecidableEq, Repr

/-- `0, 1, ..., n-1` as `Int`s. -/
def intRange (n : Int) : List Int :=
  (List.range n.toNat).map (fun (i : Nat) => (i : Int))

/-- `row_indices` (internal_unmlq.cc lines 108-116): the tile-rows of `C`
with at least one local tile, in increasing order. -/
def rowIndices (mt nt : Int) (isLocal : Int → Int → Bool) : List Int :=
  (intRange mt).filter (fun i => (intRange nt).any (fun j => isLocal i j))

/-- `col_indices` (internal_unmlq.cc lines 285-293): the tile-columns of
`C` with at least one local tile, in increasing order. -/
def colIndices (mt nt : Int) (isLocal : Int → Int → Bool) : List Int :=
  (intRange nt).filter (fun j => (intRange mt).any (fun i => isLocal i j))

/-- Effect-level embedding of `unmlq` (internal_unmlq.cc lines 74-452).
`mt`, `nt` are `C.mt()`, `C.nt()`; `vmt`, `vnt`, `wmt`, `wnt` the tile-grid
extents of `V` and `W`; `vmb` is `V.tileMb(0)` and `vnb first` is
`V.tileNb(first)`, the dimensions of the triangular tile `V0`.  The
assertions of lines 87-91, 105/282 and 122-123/299-300 map to `none`; the
`row_indices`/`col_indices` empty case returns with no effects (lines
117-118, 294-295); otherwise the effects are listed in statement order:
`Wr.insertLocalTiles()`, `tileGetAllForWriting` on `C0`, the phase-1/2/3
kernels (the trapezoid-split emits its two extra kernel calls), and the
final workspace-erase loop. -/
def unmlqModel (side : USide) (mt nt vmt vnt wmt wnt : Int)
    (vmb : Int) (vnb : Int → Int) (isLocal : Int → Int → Bool) :
    Option (List UEffect) :=
  if ¬ (1 ≤ mt) then none
  else if ¬ (1 ≤ nt) then none
  else if ¬ (vmt = 1) then none
  else if ¬ (wmt = mt) then none
  else if ¬ (wnt = nt) then none
  else
    match side with
    | .left =>
      if ¬ (vnt = mt) then none
      else if (rowIndices mt nt isLocal).length < 1 then some []
      else
        let first := (rowIndices mt nt isLocal).headD 0
        if ¬ (first < mt) then none
        else if ¬ (0 ≤ first) then none
        else
          let nb := vnb first
          let mb := if nb < vmb then nb else vmb
          let trapezoid := mb < nb
          some
            (((intRange nt).filter (fun j => isLocal first j)).map
                (fun j => UEffect.insertW first j)
              ++ [UEffect.fetchC first first 0 (nt - 1)]
              ++ [UEffect.writeW first first 0 (nt - 1)]
              ++ [UEffect.writeW first first 0 (nt - 1)]
              ++ (if trapezoid then [UEffect.writeW first first 0 (nt - 1)] else [])
              ++ (rowIndices mt nt isLocal).tail.map
                (fun _ => UEffect.writeW first first 0 (nt - 1))
              ++ [UEffect.writeW first first 0 (nt - 1)]
              ++ (if (rowIndices mt nt isLocal).length ≤ 1 then []
                  else [UEffect.writeC ((rowIndices mt nt isLocal).getD 1 0)
                    (mt - 1) 0 (nt - 1)])
              ++ (if trapezoid then [UEffect.writeC first first 0 (nt - 1)] else [])
              ++ [UEffect.writeW first first 0 (nt - 1)]
              ++ [UEffect.writeC first first 0 (nt - 1)]
              ++ ((intRange nt).filter (fun j => isLocal first j)).map
                (fun j => UEffect.eraseW first j))
    | .right =>
      if ¬ (vnt = nt) then none
      else if (colIndices mt nt isLocal).length < 1 then some []
      else
        let first := (colIndices mt nt isLocal).headD 0
        if ¬ (first < nt) then none
        else if ¬ (0 ≤ first) then none
        else
          let nb := vnb first
          let mb := if nb < vmb then nb else vmb
          let trapezoid := mb < nb
          some
            (((intRange mt).filter (fun i => isLocal i first)).map
                (fun i => UEffect.insertW i first)
              ++ [UEffect.fetchC 0 (mt - 1) first first]
              ++ [UEffect.writeW 0 (mt - 1) first first]
              ++ [UEffect.writeW 0 (mt - 1) first first]
              ++ (if trapezoid then [UEffect.writeW 0 (mt - 1) first first] else [])
              ++ (colIndices mt nt isLocal).tail.map
                (fun _ => UEffect.writeW 0 (mt - 1) first first)
              ++ [UEffect.writeW 0 (mt - 1) first first]
              ++ (if (colIndices mt nt isLocal).length ≤ 1 then []
                  else [UEffect.writeC 0 (mt - 1)
                    ((colIndices mt nt isLocal).getD 1 0) (nt - 1)])
              ++ (if trapezoid then [UEffect.writeC 0 (mt - 1) first first] else [])
              ++ [UEffect.writeW 0 (mt - 1) first first]
              ++ [UEffect.writeC 0 (mt - 1) first first]
              ++ ((intRange mt).filter (fun i => isLocal i first)).map
                (fun i => UEffect.eraseW i first))

/-- The shape conditions the `assert`s of `unmlq` actually check
(internal_unmlq.cc lines 87-91 and 105/282): `C` non-empty, `V` a single
block-row whose tile-column count matches `C.mt()` on the left and
`C.nt()` on the right, and `W`'s tile grid equal to `C`'s. -/
def unmlqPre (side : USide) (mt nt vmt vnt wmt wnt : Int) : Prop :=
  1 ≤ mt ∧ 1 ≤ nt ∧ vmt = 1 ∧ wmt = mt ∧ wnt = nt ∧
    (side = USide.left → vnt = mt) ∧ (side = USide.right → vnt = nt)

instance (side : USide) (mt nt vmt vnt wmt wnt : Int) :
    Decidable (unmlqPre side mt nt vmt vnt wmt wnt) := by
  unfold unmlqPre; infer_instance

/-- The shape conditions as the claim states them: `V` spans exactly one
block-row whose block extent matches `C`'s tile-row count in the left case,
or one block-column matching `C`'s tile-column count in the right case. -/
def unmlqClaimedPre (side : USide) (mt nt vmt vnt wmt wnt : Int) : Prop :=
  1 ≤ mt ∧ 1 ≤ nt ∧ wmt = mt ∧ wnt = nt ∧
    (side = USide.left → vmt = 1 ∧ vnt = mt) ∧
    (side = USide.right → vnt = 1 ∧ vmt = nt)

instance (side : USide) (mt nt vmt vnt wmt wnt : Int) :
    Decidable (unmlqClaimedPre side mt nt vmt vnt wmt wnt) := by
  unfold unmlqClaimedPre; infer_instance

/-- Interpretation of one effect on the set of live workspace tiles:
`insertLocalTiles` materializes a tile not yet present, `tileErase` removes
it, kernels leave tile existence unchanged. -/
def applyWTiles (tiles : List (Int × Int)) : UEffect → List (Int × Int)
  | .insertW i j => if (i, j) ∈ tiles then tiles else tiles ++ [(i, j)]
  | .eraseW i j => tiles.filter (fun p => p ≠ (i, j))
  | _ => tiles

/-- The live workspace tiles after running a list of effects. -/
def runW (effs : List UEffect) (tiles : List (Int × Int)) : List (Int × Int) :=
  effs.foldl applyWTiles tiles

/-! ## GPU_Aware_MPI (include/slate/config.hh)

The Scott-Meyers singleton probes `$SLATE_GPU_AWARE_MPI` on first use and
caches the result; the one-argument setter overwrites the cache.  The
process history is a list of operations; the cache is `Option Bool`. -/

/-- The constructor's probe (config.hh lines 44-50): true iff the variable
is set and `strcmp` finds it equal to the empty string or to `1`. -/
def envParse : Option String → Bool
  | none => false
  | some s => s == "" || s == "1"

/-- One interaction with the singleton: a `gpu_aware_mpi()` query (tagged
with the environment value at that moment) or a `gpu_aware_mpi(bool)` set. -/
inductive GpuOp where
  | query (env : Option String)
  | setVal (b : Bool)

/-- Effect of one operation on the cache, and the value a query returns.
A first-ever operation constructs the singleton, probing the environment;
a set then overwrites the probed value (config.hh lines 29-32, 37-41). -/
def gpuStep : Option Bool → GpuOp → Option Bool × Option Bool
  | none, .query env => (some (envParse env), some (envParse env))
  | some b, .query _ => (some b, some b)
  | _, .setVal b => (some b, none)

/-- The values returned by the queries in an operation history, given the
starting cache (`none` = singleton not yet constructed). -/
def gpuResults (c : Option Bool) : List GpuOp → List Bool
  | [] => []
  | op :: rest =>
    match gpuStep c op with
    | (c', some b) => b :: gpuResults c' rest
    | (c', none) => gpuResults c' rest

/-! ## Theorems -/

theorem hb2tdTask_zero : hb2tdTask 0 = 0 := rfl

theorem hb2tdTask_odd {s : Int} (h0 : 0 ≤ s) (h : s % 2 = 1) : hb2tdTask s = 1 := by
  have hne : s ≠ 0 := by omega
  rw [hb2tdTask, if_neg hne, Int.tmod_eq_emod (by omega) (by norm_num)]
  omega

theorem hb2tdTask_even {s : Int} (h0 : 0 ≤ s) (h : s % 2 = 0) (hne : s ≠ 0) :
    hb2tdTask s = 2 := by
  rw [hb2tdTask, if_neg hne, Int.tmod_eq_emod (by omega) (by norm_num)]
  omega

theorem hb2tdBlock_eq {s : Int} (h0 : 0 ≤ s) : hb2tdBlock s = s / 2 :=
  Int.tdiv_eq_ediv h0 (by norm_num)

theorem hb2tdI_task1 {band sweep s : Int} (ht : hb2tdTask s = 1) :
    hb2tdI band sweep s = (hb2tdBlock s + 1) * (band - 1) + 1 + sweep := by
  rw [hb2tdI, ht]; norm_num

theorem hb2tdJ_task1 {band sweep s : Int} (ht : hb2tdTask s = 1) :
    hb2tdJ band sweep s = hb2tdBlock s * (band - 1) + 1 + sweep := by
  rw [hb2tdJ, ht]; norm_num

theorem hb2tdI_task2 {band sweep s : Int} (ht : hb2tdTask s = 2) :
    hb2tdI band sweep s = hb2tdBlock s * (band - 1) + 1 + sweep := by
  rw [hb2tdI, ht]; norm_num

theorem hb2tdJ_task2 {band sweep s : Int} (ht : hb2tdTask s = 2) :
    hb2tdJ band sweep s = hb2tdBlock s * (band - 1) + 1 + sweep := by
  rw [hb2tdJ, ht]; norm_num

theorem hb2td_step_reads_task1 {n band sweep s : Int} (ht : hb2tdTask s = 1)
    (h1 : hb2tdI band sweep s < n) (h2 : hb2tdJ band sweep s < n) :
    (hb2td_step n band sweep s).reads =
      [(hb2tdI band sweep s - (band - 1),
        if s = 1 then hb2tdJ band sweep s - 1 else hb2tdJ band sweep s - (band - 1))] := by
  rw [hb2td_step, ht]; simp [h1, h2]

theorem hb2td_step_reads_task2 {n band sweep s : Int} (ht : hb2tdTask s = 2)
    (h1 : hb2tdI band sweep s < n) (h2 : hb2tdJ band sweep s < n) :
    (hb2td_step n band sweep s).reads =
      [(hb2tdI band sweep s, hb2tdJ band sweep s - (band - 1))] := by
  rw [hb2td_step, ht]; simp [h1, h2]

theorem hb2td_step_writes_task0 {n band sweep : Int}
    (h1 : sweep < n) :
    (hb2td_step n band sweep 0).writes = [(sweep + 1, sweep)] := by
  rw [hb2td_step]
  simp [hb2tdTask_zero, hb2tdI, hb2tdJ, hb2tdTask_zero, h1]

theorem hb2td_step_writes_task1 {n band sweep s : Int} (ht : hb2tdTask s = 1)
    (h1 : hb2tdI band sweep s < n) (h2 : hb2tdJ band sweep s < n) :
    (hb2td_step n band sweep s).writes =
      [(hb2tdI band sweep s, hb2tdJ band sweep s)] := by
  rw [hb2td_step, ht]; simp [h1, h2]

/-- Claim C2: `hb2td_step` classifies step 0 as task 0, odd steps as task 1
and even steps ≥ 2 as task 2 via `task = (step+1) mod 2 + 1`, derives the
block number as `step/2`, and computes the affected coordinates as
`i = (block+1)*(band-1)+1+sweep`, `j = block*(band-1)+1+sweep` for task 1,
`i = j = block*(band-1)+1+sweep` for task 2, `i = j = sweep` for task 0. -/
theorem hb2td_step_task_block_coords (band sweep step : Int) (h0 : 0 ≤ step) :
    (step = 0 → hb2tdTask step = 0) ∧
    (step % 2 = 1 → hb2tdTask step = 1) ∧
    (step % 2 = 0 → 2 ≤ step → hb2tdTask step = 2) ∧
    (step ≠ 0 → hb2tdTask step = (step + 1) % 2 + 1) ∧
    hb2tdBlock step = step / 2 ∧
    (step % 2 = 1 →
      hb2tdI band sweep step = (step / 2 + 1) * (band - 1) + 1 + sweep ∧
      hb2tdJ band sweep step = step / 2 * (band - 1) + 1 + sweep) ∧
    (step % 2 = 0 → 2 ≤ step →
      hb2tdI band sweep step = step / 2 * (band - 1) + 1 + sweep ∧
      hb2tdJ band sweep step = hb2tdI band sweep step) ∧
    (step = 0 → hb2tdI band sweep step = sweep ∧ hb2tdJ band sweep step = sweep) := by
  refine ⟨fun h => by rw [h]; rfl,
          fun h => hb2tdTask_odd h0 h,
          fun h h2 => hb2tdTask_even h0 h (by omega),
          fun h => ?_, hb2tdBlock_eq h0, fun h => ?_, fun h h2 => ?_, fun h => ?_⟩
  · rw [hb2tdTask, if_neg h, Int.tmod_eq_emod (by omega) (by norm_num)]
  · have ht := hb2tdTask_odd h0 h
    rw [hb2tdI_task1 ht, hb2tdJ_task1 ht, hb2tdBlock_eq h0]
    exact ⟨rfl, rfl⟩
  · have ht := hb2tdTask_even h0 h (by omega)
    rw [hb2tdI_task2 ht, hb2tdJ_task2 ht, hb2tdBlock_eq h0]
    exact ⟨rfl, rfl⟩
  · subst h
    exact ⟨rfl, rfl⟩

theorem hb2td_step_task_block_coords_witness :
    0 ≤ (6 : Int) ∧
    (((6 : Int) = 0 → hb2tdTask 6 = 0) ∧
    ((6 : Int) % 2 = 1 → hb2tdTask 6 = 1) ∧
    ((6 : Int) % 2 = 0 → 2 ≤ (6 : Int) → hb2tdTask 6 = 2) ∧
    ((6 : Int) ≠ 0 → hb2tdTask 6 = ((6 : Int) + 1) % 2 + 1) ∧
    hb2tdBlock 6 = (6 : Int) / 2 ∧
    ((6 : Int) % 2 = 1 →
      hb2tdI 3 4 6 = ((6 : Int) / 2 + 1) * (3 - 1) + 1 + 4 ∧
      hb2tdJ 3 4 6 = (6 : Int) / 2 * (3 - 1) + 1 + 4) ∧
    ((6 : Int) % 2 = 0 → 2 ≤ (6 : Int) →
      hb2tdI 3 4 6 = (6 : Int) / 2 * (3 - 1) + 1 + 4 ∧
      hb2tdJ 3 4 6 = hb2tdI 3 4 6) ∧
    ((6 : Int) = 0 → hb2tdI 3 4 6 = 4 ∧ hb2tdJ 3 4 6 = 4)) :=
  ⟨by decide, hb2td_step_task_block_coords 3 4 6 (by decide)⟩

/-- Claim C3: for every sweep and in-range step `s ≥ 1` of it, the
reflector key `hb2td_step` reads was inserted by a determined earlier step
of the same sweep — step `s-1` (a task-1 insertion) when `s` is even, step
`s-2` when `s` is odd and `s ≥ 3`, and step `0` (the task-0 insertion, via
the special key `(i-(band-1), j-1)`) when `s = 1` — and that earlier step
is itself in range, so it did insert the key: lookups never probe a key no
earlier step of the sweep has inserted. -/
theorem hb2td_step_reads_were_inserted (n band sweep s : Int)
    (hband : 2 ≤ band) (hs : 1 ≤ s)
    (hin : hb2tdI band sweep s < n ∧ hb2tdJ band sweep s < n) :
    0 ≤ hb2tdProducer s ∧ hb2tdProducer s < s ∧
      (hb2td_step n band sweep s).reads ⊆
        (hb2td_step n band sweep (hb2tdProducer s)).writes := by
  obtain ⟨hiN, hjN⟩ := hin
  rcases em (s % 2 = 0) with he | ho
  · -- even step: task 2 reads the key task 1 inserted at step s-1
    have hprod : hb2tdProducer s = s - 1 := by rw [hb2tdProducer, if_pos he]
    have hts : hb2tdTask s = 2 := hb2tdTask_even (by omega) he (by omega)
    have htp : hb2tdTask (s - 1) = 1 := hb2tdTask_odd (by omega) (by omega)
    have hb1 : hb2tdBlock s = s / 2 := hb2tdBlock_eq (by omega)
    have hb2 : hb2tdBlock (s - 1) = s / 2 - 1 := by
      rw [hb2tdBlock_eq (by omega)]; omega
    have hIs := @hb2tdI_task2 band sweep s hts
    have hJs := @hb2tdJ_task2 band sweep s hts
    have hIp := @hb2tdI_task1 band sweep _ htp
    have hJp := @hb2tdJ_task1 band sweep _ htp
    have hIpv : hb2tdI band sweep (s - 1) = hb2tdI band sweep s := by
      rw [hIp, hIs, hb2, hb1]; ring
    have hJpv : hb2tdJ band sweep (s - 1) = hb2tdI band sweep s - (band - 1) := by
      rw [hJp, hIs, hb2, hb1]; ring
    have hIpN : hb2tdI band sweep (s - 1) < n := by rw [hIpv]; exact hiN
    have hJpN : hb2tdJ band sweep (s - 1) < n := by rw [hJpv]; omega
    refine ⟨by omega, by omega, ?_⟩
    rw [hprod, hb2td_step_reads_task2 hts hiN hjN,
        hb2td_step_writes_task1 htp hIpN hJpN]
    intro x hx
    simp only [List.mem_singleton] at hx ⊢
    rw [hx, hIpv, hJpv]
    rw [hJs, hIs]
  · rcases em (s = 1) with h1 | hgt
    · -- step 1: task 1 reads the special key task 0 inserted
      subst h1
      have hprod : hb2tdProducer 1 = 0 := by rw [hb2tdProducer]; norm_num
      have hts : hb2tdTask 1 = 1 := by decide
      have hb1 : hb2tdBlock 1 = 0 := by decide
      have hIs := @hb2tdI_task1 band sweep _ hts
      have hJs := @hb2tdJ_task1 band sweep _ hts
      have hsw : sweep < n := by
        rw [hJs, hb1] at hjN; omega
      refine ⟨by omega, by omega, ?_⟩
      rw [hprod, hb2td_step_reads_task1 hts hiN hjN,
          hb2td_step_writes_task0 hsw]
      intro x hx
      simp only [List.mem_singleton] at hx ⊢
      subst hx
      rw [hIs, hJs, hb1]
      simp only [if_true, Prod.mk.injEq]
      constructor <;> ring
    · -- odd step ≥ 3: task 1 reads the key task 1 inserted at step s-2
      have hso : s % 2 = 1 := by omega
      have hs3 : 3 ≤ s := by omega
      have hprod : hb2tdProducer s = s - 2 := by
        rw [hb2tdProducer, if_neg (by omega), if_neg hgt]
      have hts : hb2tdTask s = 1 := hb2tdTask_odd (by omega) hso
      have htp : hb2tdTask (s - 2) = 1 := hb2tdTask_odd (by omega) (by omega)
      have hb1 : hb2tdBlock s = s / 2 := hb2tdBlock_eq (by omega)
      have hb2 : hb2tdBlock (s - 2) = s / 2 - 1 := by
        rw [hb2tdBlock_eq (by omega)]; omega
      have hIs := @hb2tdI_task1 band sweep _ hts
      have hJs := @hb2tdJ_task1 band sweep _ hts
      have hIp := @hb2tdI_task1 band sweep _ htp
      have hJp := @hb2tdJ_task1 band sweep _ htp
      have hIpv : hb2tdI band sweep (s - 2) = hb2tdI band sweep s - (band - 1) := by
        rw [hIp, hIs, hb2, hb1]; ring
      have hJpv : hb2tdJ band sweep (s - 2) = hb2tdJ band sweep s - (band - 1) := by
        rw [hJp, hJs, hb2, hb1]; ring
      have hIpN : hb2tdI band sweep (s - 2) < n := by rw [hIpv]; omega
      have hJpN : hb2tdJ band sweep (s - 2) < n := by rw [hJpv]; omega
      refine ⟨by omega, by omega, ?_⟩
      rw [hprod, hb2td_step_reads_task1 hts hiN hjN,
          hb2td_step_writes_task1 htp hIpN hJpN]
      intro x hx
      simp only [List.mem_singleton, if_neg hgt] at hx ⊢
      rw [hx, hIpv, hJpv]

theorem hb2td_step_reads_were_inserted_witness :
    (2 ≤ (2 : Int) ∧ 1 ≤ (2 : Int) ∧
      (hb2tdI 2 0 2 < 100 ∧ hb2tdJ 2 0 2 < 100)) ∧
    (0 ≤ hb2tdProducer 2 ∧ hb2tdProducer 2 < 2 ∧
      (hb2td_step 100 2 0 2).reads ⊆
        (hb2td_step 100 2 0 (hb2tdProducer 2)).writes) :=
  ⟨⟨by decide, by decide, by decide⟩,
   hb2td_step_reads_were_inserted 100 2 0 2 (by decide) (by decide) (by decide)⟩

/-- Claim C7: an `hb2td_step` invocation whose derived coordinates fall
outside the matrix (`i ≥ A.n()` or `j ≥ A.n()`) is a silent no-op — no
reflector key is read or inserted, no slice of `A` is touched, and no error
is raised — while `hb2td_run` records any step it executes (in range or
not) in the progress table, so no-op steps near the matrix corner cannot
stall a waiting thread. -/
theorem hb2td_step_out_of_range_noop_and_recorded
    (n band sweep step dl bandr : Int) (st st2 : HbState) (k s : Int)
    (hout : ¬ (hb2tdI band sweep step < n ∧ hb2tdJ band sweep step < n))
    (hstep : HbRunStep dl bandr st st2)
    (hev : st2.events = st.events ++ [(k, s)]) :
    hb2td_step n band sweep step = StepAction.noop ∧ st2.progress k = s := by
  constructor
  · simp only [hb2td_step, if_neg hout, ite_self]
  · rcases hstep with ⟨p, pre, post, rest, k0, s0, ev, hcross, hintra⟩
    simp only [List.append_cancel_left_eq, List.cons.injEq, Prod.mk.injEq] at hev
    obtain ⟨⟨hk, hs⟩, -⟩ := hev
    simp [updProg, hk, hs]

theorem hb2td_step_out_of_range_noop_and_recorded_witness :
    (¬ (hb2tdI 2 5 0 < 1 ∧ hb2tdJ 2 5 0 < 1)) ∧
    (hb2td_step 1 2 5 0 = StepAction.noop ∧
      (HbState.mk (updProg (fun _ => (-1 : Int)) 0 0) ([] ++ [] :: [])
          ([] ++ [((0 : Int), (0 : Int))])).progress 0 = 0) :=
  ⟨by decide,
   hb2td_step_out_of_range_noop_and_recorded 1 2 5 0 7 2
     ⟨fun _ => -1, [] ++ (((0 : Int), (0 : Int)) :: []) :: [], []⟩ _ 0 0 (by decide)
     (HbRunStep.exec (fun _ => -1) [] [] [] 0 0 []
       (fun h => absurd h (by norm_num)) (fun h => absurd h (by norm_num)))
     rfl⟩

theorem gpuResults_cached (b : Bool) (l : List (Option String)) :
    gpuResults (some b) (l.map GpuOp.query) = l.map (fun _ => b) := by
  induction l with
  | nil => rfl
  | cons e rest ih => simp [gpuResults, gpuStep, ih]

/-- Claim C10: `gpu_aware_mpi()` returns true iff, at the time of the first
query in the process (unless overridden by the one-argument setter), the
environment variable `SLATE_GPU_AWARE_MPI` is set and equals the empty
string or `1`; any other value yields false; and the probed value is cached
in the singleton, so later environment changes do not affect later queries,
while a set makes all later queries return the set value. -/
theorem gpu_aware_mpi_env_query_cached :
    (∀ env, envParse env = true ↔ env = some ("") ∨ env = some ("1")) ∧
    (∀ e0 (rest : List (Option String)),
      gpuResults none (GpuOp.query e0 :: rest.map GpuOp.query) =
        envParse e0 :: rest.map (fun _ => envParse e0)) ∧
    (∀ c b ops, gpuResults c (GpuOp.setVal b :: ops) = gpuResults (some b) ops) ∧
    (∀ b ops env, gpuResults (some b) (GpuOp.query env :: ops) =
        b :: gpuResults (some b) ops) := by
  refine ⟨?_, ?_, ?_, ?_⟩
  · intro env
    cases env with
    | none => simp [envParse]
    | some s => simp [envParse]
  · intro e0 rest
    simp [gpuResults, gpuStep, gpuResults_cached]
  · intro c b ops
    cases c <;> rfl
  · intro b ops env
    rfl

/-- Claim C1: in the pipeline, step `s` of sweep `k` begins only after both
its dependencies hold — when `s > 0` the executing thread has observed the
progress counter of sweep `k` at `≥ s-1`, and when `k > 0` it has observed
the progress counter of sweep `k-1` at `≥ min(s+2, nsteps_last-1)` with
`nsteps_last` the number of steps of sweep `k-1`; a step of sweep 0 has no
cross-sweep wait and step 0 of a sweep has no intra-sweep wait. -/
theorem hb2td_run_waits_for_dependencies (dl band ps T : Int) (st st2 : HbState)
    (k s : Int) (hreach : HbReach dl band ps T st)
    (hstep : HbRunStep dl band st st2)
    (hev : st2.events = st.events ++ [(k, s)]) :
    (0 < s → s - 1 ≤ st.progress k) ∧
    (0 < k → min (s + 2) (nsteps dl band (k - 1) - 1) ≤ st.progress (k - 1)) := by
  rcases hstep with ⟨p, pre, post, rest, k0, s0, ev, hcross, hintra⟩
  simp only [List.append_cancel_left_eq, List.cons.injEq, Prod.mk.injEq] at hev
  obtain ⟨⟨hk, hs⟩, -⟩ := hev
  subst hk; subst hs
  exact ⟨hintra, hcross⟩

theorem hb2td_run_waits_for_dependencies_witness :
    (0 < (1 : Int) → (1 : Int) - 1 ≤ updProg (fun _ => (-1 : Int)) 0 0 0) ∧
    (0 < (0 : Int) →
      min ((1 : Int) + 2) (nsteps 5 2 (0 - 1) - 1) ≤
        updProg (fun _ => (-1 : Int)) 0 0 (0 - 1)) := by
  have hinit : hbInit 5 2 1 1 =
      ⟨fun _ => -1,
       [] ++ (((0 : Int), (0 : Int)) :: ((0 : Int), (1 : Int)) ::
         [((0 : Int), (2 : Int)), (0, 3), (0, 4), (0, 5), (0, 6), (1, 0), (1, 1),
          (1, 2), (1, 3), (1, 4), (2, 0), (2, 1), (2, 2)]) :: [], []⟩ := by
    rw [hbInit]
    congr 1
  have hstep1 : HbRunStep 5 2 (hbInit 5 2 1 1)
      ⟨updProg (fun _ => -1) 0 0,
       [] ++ (((0 : Int), (1 : Int)) ::
         [((0 : Int), (2 : Int)), (0, 3), (0, 4), (0, 5), (0, 6), (1, 0), (1, 1),
          (1, 2), (1, 3), (1, 4), (2, 0), (2, 1), (2, 2)]) :: [],
       [] ++ [((0 : Int), (0 : Int))]⟩ := by
    rw [hinit]
    exact HbRunStep.exec (fun _ => -1) [] []
      (((0 : Int), (1 : Int)) ::
        [((0 : Int), (2 : Int)), (0, 3), (0, 4), (0, 5), (0, 6), (1, 0), (1, 1),
         (1, 2), (1, 3), (1, 4), (2, 0), (2, 1), (2, 2)]) 0 0 []
      (fun h => absurd h (by norm_num)) (fun h => absurd h (by norm_num))
  have hstep2 : HbRunStep 5 2
      ⟨updProg (fun _ => -1) 0 0,
       [] ++ (((0 : Int), (1 : Int)) ::
         [((0 : Int), (2 : Int)), (0, 3), (0, 4), (0, 5), (0, 6), (1, 0), (1, 1),
          (1, 2), (1, 3), (1, 4), (2, 0), (2, 1), (2, 2)]) :: [],
       [] ++ [((0 : Int), (0 : Int))]⟩
      ⟨updProg (updProg (fun _ => -1) 0 0) 0 1,
       [] ++ [((0 : Int), (2 : Int)), (0, 3), (0, 4), (0, 5), (0, 6), (1, 0), (1, 1),
          (1, 2), (1, 3), (1, 4), (2, 0), (2, 1), (2, 2)] :: [],
       ([] ++ [((0 : Int), (0 : Int))]) ++ [((0 : Int), (1 : Int))]⟩ :=
    HbRunStep.exec (updProg (fun _ => -1) 0 0) [] []
      [((0 : Int), (2 : Int)), (0, 3), (0, 4), (0, 5), (0, 6), (1, 0), (1, 1),
       (1, 2), (1, 3), (1, 4), (2, 0), (2, 1), (2, 2)] 0 1
      ([] ++ [((0 : Int), (0 : Int))])
      (fun h => absurd h (by norm_num))
      (fun _ => by norm_num [updProg])
  exact hb2td_run_waits_for_dependencies 5 2 1 1 _ _ 0 1
    (Relation.ReflTransGen.single hstep1) hstep2 rfl

/-! ### Characterizing the thread schedules

The lemmas below locate any pair of a thread's schedule inside one pass and
extract what the loop bounds force: the sweep lies in the pass's sweep
interval, the step is nonnegative, and the step is congruent to
`thread_rank - start_thread` modulo `thread_size`.  Distinct threads of one
pass get distinct residues, and distinct passes get disjoint sweep
intervals, so all schedules are pairwise disjoint and duplicate-free. -/

theorem tmod_neg_dividend (a b : Int) : Int.tmod (-a) b = -Int.tmod a b := by
  rw [Int.tmod_def, Int.tmod_def, Int.neg_tdiv]; ring

theorem tmod_bounds {T : Int} (hT : 0 < T) (a : Int) :
    -T < Int.tmod a T ∧ Int.tmod a T < T := by
  rcases le_or_lt 0 a with h | h
  · have h1 := Int.tmod_nonneg T h
    exact ⟨by omega, Int.tmod_lt_of_pos a hT⟩
  · have h1 : Int.tmod (-a) T < T := Int.tmod_lt_of_pos _ hT
    have h2 : 0 ≤ Int.tmod (-a) T := Int.tmod_nonneg T (by omega)
    have h3 : Int.tmod a T = -Int.tmod (-a) T := by
      rw [← tmod_neg_dividend, neg_neg]
    omega

theorem stAfter_bounds {dl band T : Int} (hT : 0 < T) :
    ∀ (passes : List Int) {st : Int}, -T < st → st < T →
      -T < stAfter dl band T passes st ∧ stAfter dl band T passes st < T
  | [], _, h1, h2 => ⟨h1, h2⟩
  | pass :: rest, st, _, _ => by
    rw [stAfter]
    have hb := tmod_bounds hT (st + nsteps dl band pass)
    exact stAfter_bounds hT rest hb.1 hb.2

theorem stepBegin_bounds {t st T : Int} (hT : 0 < T) (ht : 0 ≤ t)
    (_h1 : -T < st) (h2 : st < T) :
    0 ≤ stepBegin t st T ∧ stepBegin t st T < T ∧
      stepBegin t st T % T = (t - st) % T := by
  have hx : (0 : Int) ≤ t - st + T := by omega
  rw [stepBegin, Int.tmod_eq_emod hx (by omega)]
  refine ⟨Int.emod_nonneg _ (by omega), Int.emod_lt_of_pos _ hT, ?_⟩
  rw [Int.emod_emod_of_dvd _ dvd_rfl]
  exact Int.add_emod_self

theorem mem_stepsList {s sb np T : Int} (hT : 0 < T)
    (h : s ∈ stepsList sb np T) :
    sb ≤ s ∧ s < np ∧ s % T = sb % T := by
  rw [stepsList] at h
  simp only [List.mem_map, List.mem_range] at h
  obtain ⟨i, hi, rfl⟩ := h
  have hiT : (0 : Int) ≤ T * i := mul_nonneg (by omega) (by omega)
  refine ⟨by omega, ?_, Int.add_mul_emod_self_left sb T i⟩
  have hlt : (i : Int) + 1 ≤ (np - sb + T - 1) / T := by
    generalize hd : (np - sb + T - 1) / T = d at hi
    omega
  have h2 : ((i : Int) + 1) * T ≤ np - sb + T - 1 :=
    (Int.le_ediv_iff_mul_le hT).mp hlt
  have h3 : ((i : Int) + 1) * T = T * i + T := by ring
  omega

theorem mem_sweepsList {k pass se : Int} (h : k ∈ sweepsList pass se) :
    pass ≤ k ∧ k < se := by
  rw [sweepsList] at h
  simp only [List.mem_map, List.mem_range] at h
  obtain ⟨i, hi, rfl⟩ := h
  omega

theorem mem_passPairs {dl band ps T t st pass : Int} {p : Int × Int}
    (h : p ∈ passPairs dl band ps T t st pass) :
    p.2 ∈ stepsList (stepBegin t st T) (nsteps dl band pass) T ∧
      pass ≤ p.1 ∧ p.1 < min (pass + ps) (dl - 2) ∧ p.2 < nsteps dl band p.1 := by
  rw [passPairs] at h
  simp only [List.mem_flatMap, List.mem_map, List.mem_filter, decide_eq_true_eq] at h
  obtain ⟨s, hs, k, ⟨hk, hlt⟩, rfl⟩ := h
  exact ⟨hs, (mem_sweepsList hk).1, (mem_sweepsList hk).2, hlt⟩

theorem passPairs_pair_bounds {dl band ps T t st pass : Int} {p : Int × Int}
    (hT : 0 < T) (ht : 0 ≤ t) (h1 : -T < st) (h2 : st < T)
    (h : p ∈ passPairs dl band ps T t st pass) :
    0 ≤ p.2 ∧ p.2 % T = (t - st) % T ∧
      pass ≤ p.1 ∧ p.1 < min (pass + ps) (dl - 2) := by
  obtain ⟨hstep, hk1, hk2, -⟩ := mem_passPairs h
  obtain ⟨hsb0, hsbT, hsbmod⟩ := stepBegin_bounds hT ht h1 h2
  obtain ⟨hge, hlt, hmod⟩ := mem_stepsList hT hstep
  refine ⟨by omega, ?_, hk1, hk2⟩
  rw [hmod]
  exact hsbmod

theorem mem_schedFrom {dl band ps T t : Int} {p : Int × Int} :
    ∀ (passes : List Int) (st : Int), p ∈ schedFrom dl band ps T t passes st →
      ∃ j : Nat, j < passes.length ∧
        p ∈ passPairs dl band ps T t
          (stAfter dl band T (passes.take j) st) (passes.getD j 0)
  | [], st, h => by rw [schedFrom] at h; exact absurd h (List.not_mem_nil p)
  | pass :: rest, st, h => by
    rw [schedFrom, List.mem_append] at h
    rcases h with h | h
    · exact ⟨0, by simp, h⟩
    · obtain ⟨j, hj, hp⟩ :=
        mem_schedFrom rest (Int.tmod (st + nsteps dl band pass) T) h
      exact ⟨j + 1, by simpa using hj, by simpa [stAfter] using hp⟩

theorem passList_getD {dl ps : Int} {j : Nat} (hj : j < (passList dl ps).length) :
    (passList dl ps).getD j 0 = ps * (j : Int) := by
  rw [List.getD_eq_getElem _ _ hj]
  simp only [passList, List.getElem_map, List.getElem_range]

theorem mem_threadSchedule {dl band ps T t : Int} {p : Int × Int}
    (hT : 0 < T) (ht : 0 ≤ t) (h : p ∈ threadSchedule dl band ps T t) :
    ∃ j : Nat, j < (passList dl ps).length ∧ 0 ≤ p.2 ∧
      p.2 % T = (t - stAfter dl band T ((passList dl ps).take j) 0) % T ∧
      ps * (j : Int) ≤ p.1 ∧ p.1 < min (ps * (j : Int) + ps) (dl - 2) := by
  obtain ⟨j, hj, hp⟩ := mem_schedFrom _ _ h
  have hbounds := @stAfter_bounds dl band T hT
    ((passList dl ps).take j) 0 (by omega) (by omega)
  obtain ⟨h0, hmod, hk1, hk2⟩ :=
    passPairs_pair_bounds hT ht hbounds.1 hbounds.2 hp
  rw [passList_getD hj] at hk1 hk2
  exact ⟨j, hj, h0, hmod, hk1, hk2⟩

theorem threadSchedule_disjoint {dl band ps T : Int} (hT : 0 < T) (hps : 0 < ps)
    {t1 t2 : Int} (h1 : 0 ≤ t1) (h2 : t1 < T) (h3 : 0 ≤ t2) (h4 : t2 < T)
    (hne : t1 ≠ t2) :
    List.Disjoint (threadSchedule dl band ps T t1) (threadSchedule dl band ps T t2) := by
  intro p hp1 hp2
  obtain ⟨j1, hj1, -, hmod1, hk11, hk12⟩ := mem_threadSchedule hT h1 hp1
  obtain ⟨j2, hj2, -, hmod2, hk21, hk22⟩ := mem_threadSchedule hT h3 hp2
  have hk12l : p.1 < ps * (j1 : Int) + ps := lt_of_lt_of_le hk12 (min_le_left _ _)
  have hk22l : p.1 < ps * (j2 : Int) + ps := lt_of_lt_of_le hk22 (min_le_left _ _)
  have hjj : j1 = j2 := by
    by_contra hne2
    rcases Nat.lt_or_ge j1 j2 with hlt | hge
    · have hc : ps * ((j1 : Int) + 1) ≤ ps * (j2 : Int) :=
        Int.mul_le_mul_of_nonneg_left (by exact_mod_cast hlt) (by omega)
      have he : ps * ((j1 : Int) + 1) = ps * (j1 : Int) + ps := by ring
      linarith
    · have hlt2 : j2 < j1 := by omega
      have hc : ps * ((j2 : Int) + 1) ≤ ps * (j1 : Int) :=
        Int.mul_le_mul_of_nonneg_left (by exact_mod_cast hlt2) (by omega)
      have he : ps * ((j2 : Int) + 1) = ps * (j2 : Int) + ps := by ring
      linarith
  subst hjj
  have hmm : (t1 - stAfter dl band T ((passList dl ps).take j1) 0) % T =
      (t2 - stAfter dl band T ((passList dl ps).take j1) 0) % T := by
    rw [← hmod1, hmod2]
  rw [Int.emod_eq_emod_iff_emod_sub_eq_zero] at hmm
  have hdvd : T ∣ t1 - t2 := by
    have := Int.dvd_of_emod_eq_zero hmm
    rwa [sub_sub_sub_cancel_right] at this
  have hz : t1 - t2 = 0 :=
    Int.eq_zero_of_dvd_of_natAbs_lt_natAbs hdvd (by omega)
  exact hne (by omega)

theorem stepsList_nodup {sb np T : Int} (hT : 0 < T) : (stepsList sb np T).Nodup := by
  rw [stepsList]
  refine List.Nodup.map ?_ (List.nodup_range _)
  intro a b hab
  have h2 : T * (a : Int) = T * (b : Int) := by
    simp only at hab
    linarith
  have h3 : (a : Int) = b := mul_left_cancel₀ (by omega) h2
  exact_mod_cast h3

theorem sweepsList_nodup {pass se : Int} : (sweepsList pass se).Nodup := by
  rw [sweepsList]
  refine List.Nodup.map ?_ (List.nodup_range _)
  intro a b hab
  simp only at hab
  have : (a : Int) = b := by linarith
  exact_mod_cast this

theorem passPairs_nodup {dl band ps T t st pass : Int} (hT : 0 < T) :
    (passPairs dl band ps T t st pass).Nodup := by
  rw [passPairs, List.flatMap_def, List.nodup_flatten]
  constructor
  · intro l hl
    simp only [List.mem_map] at hl
    obtain ⟨s, hs, rfl⟩ := hl
    refine List.Nodup.map ?_ (sweepsList_nodup.filter _)
    intro a b hab
    exact congrArg Prod.fst hab
  · rw [List.pairwise_map]
    refine List.Pairwise.imp ?_ (stepsList_nodup hT)
    intro a b hne p hp1 hp2
    simp only [List.mem_map] at hp1 hp2
    obtain ⟨k1, -, hk1⟩ := hp1
    obtain ⟨k2, -, hk2⟩ := hp2
    exact hne ((congrArg Prod.snd hk1).trans (congrArg Prod.snd hk2).symm)

theorem mem_schedFrom_pass_interval {dl band ps T t : Int} {p : Int × Int} :
    ∀ (passes : List Int) (st : Int), p ∈ schedFrom dl band ps T t passes st →
      ∃ pass ∈ passes, pass ≤ p.1 ∧ p.1 < pass + ps
  | [], st, h => by rw [schedFrom] at h; exact absurd h (List.not_mem_nil p)
  | pass :: rest, st, h => by
    rw [schedFrom, List.mem_append] at h
    rcases h with h | h
    · obtain ⟨-, hk1, hk2, -⟩ := mem_passPairs h
      exact ⟨pass, List.mem_cons_self _ _, hk1, by omega⟩
    · obtain ⟨q, hq, hb⟩ := mem_schedFrom_pass_interval rest _ h
      exact ⟨q, List.mem_cons_of_mem _ hq, hb⟩

theorem schedFrom_nodup {dl band ps T t : Int} (hT : 0 < T) :
    ∀ (passes : List Int) (st : Int),
      passes.Pairwise (fun a b => a + ps ≤ b) →
      (schedFrom dl band ps T t passes st).Nodup
  | [], _, _ => List.nodup_nil
  | pass :: rest, st, hpw => by
    obtain ⟨hhead, htail⟩ := List.pairwise_cons.mp hpw
    rw [schedFrom, List.nodup_append]
    refine ⟨passPairs_nodup hT, schedFrom_nodup hT rest _ htail, ?_⟩
    intro p hp1 hp2
    obtain ⟨-, hk1, hk2, -⟩ := mem_passPairs hp1
    obtain ⟨q, hq, hb1, hb2⟩ := mem_schedFrom_pass_interval rest _ hp2
    have := hhead q hq
    have hk2l : p.1 < pass + ps := lt_of_lt_of_le hk2 (min_le_left _ _)
    omega

theorem passList_pairwise {dl ps : Int} (hps : 0 < ps) :
    (passList dl ps).Pairwise (fun a b => a + ps ≤ b) := by
  rw [passList, List.pairwise_map]
  refine List.Pairwise.imp ?_ (List.pairwise_lt_range _)
  intro a b hab
  have h1 : ps * ((a : Int) + 1) ≤ ps * (b : Int) :=
    Int.mul_le_mul_of_nonneg_left (by exact_mod_cast hab) (by omega)
  have he : ps * ((a : Int) + 1) = ps * (a : Int) + ps := by ring
  linarith

theorem hbInit_pending_nodup {dl band ps T : Int} (hT : 0 < T) (hps : 0 < ps) :
    (pendingPairs (hbInit dl band ps T)).Nodup := by
  rw [pendingPairs, hbInit, List.nodup_flatten]
  constructor
  · intro l hl
    simp only [List.mem_map] at hl
    obtain ⟨t, ht, rfl⟩ := hl
    exact schedFrom_nodup hT _ _ (passList_pairwise hps)
  · rw [List.pairwise_iff_getElem]
    intro i j hi hj hij
    simp only [List.length_map, List.length_range] at hi hj
    simp only [List.getElem_map, List.getElem_range]
    exact threadSchedule_disjoint hT hps (by omega) (by omega) (by omega)
      (by omega) (by omega)

theorem hbInit_pending_nonneg {dl band ps T : Int}
    {p : Int × Int} (h : p ∈ pendingPairs (hbInit dl band ps T)) : 0 ≤ p.2 := by
  rw [pendingPairs, hbInit] at h
  simp only [List.mem_flatten, List.mem_map] at h
  obtain ⟨l, ⟨t, ht, rfl⟩, hp⟩ := h
  have hT : 0 < T := by
    simp only [List.mem_range] at ht
    omega
  obtain ⟨j, hj, h0, -⟩ := mem_threadSchedule hT (by omega) hp
  exact h0

/-! ### The progress-table invariant -/

theorem hbInv_step {dl band : Int} {st st2 : HbState} (hinv : HbInv st)
    (hstep : HbRunStep dl band st st2) : HbInv st2 := by
  rcases hstep with ⟨p, pre, post, rest, k, s, ev, hcross, hintra⟩
  obtain ⟨hnd, hbd⟩ := hinv
  have hpend : pendingPairs ⟨p, pre ++ ((k, s) :: rest) :: post, ev⟩ =
      pre.flatten ++ (k, s) :: (rest ++ post.flatten) := by
    simp [pendingPairs, List.flatten_append]
  have hpend2 : pendingPairs ⟨updProg p k s, pre ++ rest :: post, ev ++ [(k, s)]⟩ =
      pre.flatten ++ (rest ++ post.flatten) := by
    simp [pendingPairs, List.flatten_append]
  rw [hpend] at hnd hbd
  have hsub : (pre.flatten ++ (rest ++ post.flatten)).Sublist
      (pre.flatten ++ (k, s) :: (rest ++ post.flatten)) :=
    List.Sublist.append_left (List.sublist_cons_self _ _) _
  have hnotmem : (k, s) ∉ pre.flatten ++ (rest ++ post.flatten) :=
    (List.nodup_cons.mp (List.nodup_middle.mp hnd)).1
  constructor
  · rw [hpend2]
    exact hsub.nodup hnd
  · rw [hpend2]
    intro q hq
    have hqold : q ∈ pre.flatten ++ (k, s) :: (rest ++ post.flatten) :=
      hsub.mem hq
    obtain ⟨hq0, hqlt0⟩ := hbd q hqold
    have hqlt : p q.1 < q.2 := hqlt0
    refine ⟨hq0, ?_⟩
    show updProg p k s q.1 < q.2
    by_cases hqk : q.1 = k
    · have hqne : q ≠ (k, s) := fun he => hnotmem (he ▸ hq)
      have hq2ne : q.2 ≠ s := fun he => hqne (Prod.ext hqk he)
      have hupd : updProg p k s q.1 = s := by
        rw [updProg, if_pos hqk]
      have hqlt2 : p k < q.2 := by rw [← hqk]; exact hqlt
      rw [hupd]
      rcases lt_or_le 0 s with hs | hs
      · have hi := hintra hs
        omega
      · omega
    · have hupd : updProg p k s q.1 = p q.1 := by
        rw [updProg, if_neg hqk]
      rw [hupd]
      exact hqlt

theorem hbInv_reach {dl band ps T : Int} (hT : 0 < T) (hps : 0 < ps)
    {st : HbState} (h : HbReach dl band ps T st) : HbInv st := by
  induction h with
  | refl =>
    refine ⟨hbInit_pending_nodup hT hps, fun p hp => ⟨hbInit_pending_nonneg hp, ?_⟩⟩
    have := hbInit_pending_nonneg hp
    show (-1 : Int) < p.2
    omega
  | tail hsteps hstep ih => exact hbInv_step ih hstep

/-- Claim C8: every progress counter starts at the sentinel `-1`, and each
write to the counter of sweep `k` stores the index of the step just
completed, which is strictly greater than the counter's previous value;
hence every counter is monotonically non-decreasing over the reduction. -/
theorem hb2td_progress_init_and_monotone (dl band ps T : Int)
    (hT : 1 ≤ T) (hps : 1 ≤ ps) (st st2 : HbState) (k s : Int)
    (hreach : HbReach dl band ps T st) (hstep : HbRunStep dl band st st2)
    (hev : st2.events = st.events ++ [(k, s)]) :
    (∀ j, (hbInit dl band ps T).progress j = -1) ∧
    st.progress k < s ∧ st2.progress k = s ∧
    ∀ j, st.progress j ≤ st2.progress j := by
  have hinv := hbInv_reach (by omega) (by omega) hreach
  rcases hstep with ⟨p, pre, post, rest, k0, s0, ev, hcross, hintra⟩
  simp only [List.append_cancel_left_eq, List.cons.injEq, Prod.mk.injEq] at hev
  obtain ⟨⟨hk, hs⟩, -⟩ := hev
  subst hk; subst hs
  have hmem : (k0, s0) ∈ pendingPairs ⟨p, pre ++ ((k0, s0) :: rest) :: post, ev⟩ := by
    simp [pendingPairs, List.flatten_append]
  have hlt : p k0 < s0 := (hinv.2 _ hmem).2
  have hupd : updProg p k0 s0 k0 = s0 := by rw [updProg, if_pos rfl]
  refine ⟨fun j => rfl, hlt, hupd, fun j => ?_⟩
  show p j ≤ updProg p k0 s0 j
  by_cases hj : j = k0
  · subst hj
    rw [hupd]
    exact le_of_lt hlt
  · rw [updProg, if_neg hj]

theorem hb2td_progress_init_and_monotone_witness :
    ((∀ j, (hbInit 5 2 1 1).progress j = -1) ∧
     updProg (fun _ => (-1 : Int)) 0 0 0 < 1 ∧
     (HbState.mk (updProg (updProg (fun _ => (-1 : Int)) 0 0) 0 1)
       ([] ++ [((0 : Int), (2 : Int)), (0, 3), (0, 4), (0, 5), (0, 6), (1, 0), (1, 1),
          (1, 2), (1, 3), (1, 4), (2, 0), (2, 1), (2, 2)] :: [])
       (([] ++ [((0 : Int), (0 : Int))]) ++ [((0 : Int), (1 : Int))])).progress 0 = 1 ∧
     ∀ j, updProg (fun _ => (-1 : Int)) 0 0 j ≤
       (HbState.mk (updProg (updProg (fun _ => (-1 : Int)) 0 0) 0 1)
         ([] ++ [((0 : Int), (2 : Int)), (0, 3), (0, 4), (0, 5), (0, 6), (1, 0), (1, 1),
            (1, 2), (1, 3), (1, 4), (2, 0), (2, 1), (2, 2)] :: [])
         (([] ++ [((0 : Int), (0 : Int))]) ++ [((0 : Int), (1 : Int))])).progress j) := by
  have hinit : hbInit 5 2 1 1 =
      ⟨fun _ => -1,
       [] ++ (((0 : Int), (0 : Int)) :: ((0 : Int), (1 : Int)) ::
         [((0 : Int), (2 : Int)), (0, 3), (0, 4), (0, 5), (0, 6), (1, 0), (1, 1),
          (1, 2), (1, 3), (1, 4), (2, 0), (2, 1), (2, 2)]) :: [], []⟩ := by
    rw [hbInit]
    congr 1
  have hstep1 : HbRunStep 5 2 (hbInit 5 2 1 1)
      ⟨updProg (fun _ => -1) 0 0,
       [] ++ (((0 : Int), (1 : Int)) ::
         [((0 : Int), (2 : Int)), (0, 3), (0, 4), (0, 5), (0, 6), (1, 0), (1, 1),
          (1, 2), (1, 3), (1, 4), (2, 0), (2, 1), (2, 2)]) :: [],
       [] ++ [((0 : Int), (0 : Int))]⟩ := by
    rw [hinit]
    exact HbRunStep.exec (fun _ => -1) [] []
      (((0 : Int), (1 : Int)) ::
        [((0 : Int), (2 : Int)), (0, 3), (0, 4), (0, 5), (0, 6), (1, 0), (1, 1),
         (1, 2), (1, 3), (1, 4), (2, 0), (2, 1), (2, 2)]) 0 0 []
      (fun h => absurd h (by norm_num)) (fun h => absurd h (by norm_num))
  have hstep2 : HbRunStep 5 2
      ⟨updProg (fun _ => -1) 0 0,
       [] ++ (((0 : Int), (1 : Int)) ::
         [((0 : Int), (2 : Int)), (0, 3), (0, 4), (0, 5), (0, 6), (1, 0), (1, 1),
          (1, 2), (1, 3), (1, 4), (2, 0), (2, 1), (2, 2)]) :: [],
       [] ++ [((0 : Int), (0 : Int))]⟩
      ⟨updProg (updProg (fun _ => -1) 0 0) 0 1,
       [] ++ [((0 : Int), (2 : Int)), (0, 3), (0, 4), (0, 5), (0, 6), (1, 0), (1, 1),
          (1, 2), (1, 3), (1, 4), (2, 0), (2, 1), (2, 2)] :: [],
       ([] ++ [((0 : Int), (0 : Int))]) ++ [((0 : Int), (1 : Int))]⟩ :=
    HbRunStep.exec (updProg (fun _ => -1) 0 0) [] []
      [((0 : Int), (2 : Int)), (0, 3), (0, 4), (0, 5), (0, 6), (1, 0), (1, 1),
       (1, 2), (1, 3), (1, 4), (2, 0), (2, 1), (2, 2)] 0 1
      ([] ++ [((0 : Int), (0 : Int))])
      (fun h => absurd h (by norm_num))
      (fun _ => by norm_num [updProg])
  exact hb2td_progress_init_and_monotone 5 2 1 1 (by norm_num) (by norm_num) _ _ 0 1
    (Relation.ReflTransGen.single hstep1) hstep2 rfl

/-! ### The band = 1 case: empty schedules -/

theorem nsteps_band1 {dl sweep : Int} : nsteps dl 1 sweep = -1 := by
  rw [nsteps, ceildiv]
  norm_num

theorem stepsList_empty {sb np T : Int} (hT : 0 < T) (hsb : 0 ≤ sb) (hnp : np ≤ 0) :
    stepsList sb np T = [] := by
  rw [stepsList]
  have hle : (np - sb + T - 1) / T ≤ 0 := by
    calc (np - sb + T - 1) / T ≤ (T - 1) / T := Int.ediv_le_ediv hT (by omega)
    _ = 0 := Int.ediv_eq_zero_of_lt (by omega) (by omega)
  rw [Int.toNat_of_nonpos hle]
  rfl

theorem passPairs_band1 {dl ps T t st pass : Int} (hT : 0 < T) (ht : 0 ≤ t)
    (h1 : -T < st) (h2 : st < T) : passPairs dl 1 ps T t st pass = [] := by
  rw [passPairs, stepsList_empty hT (stepBegin_bounds hT ht h1 h2).1
    (by rw [nsteps_band1]; norm_num)]
  rfl

theorem schedFrom_band1 {dl ps T t : Int} (hT : 0 < T) (ht : 0 ≤ t) :
    ∀ (passes : List Int) (st : Int), -T < st → st < T →
      schedFrom dl 1 ps T t passes st = []
  | [], _, _, _ => rfl
  | pass :: rest, st, h1, h2 => by
    rw [schedFrom, passPairs_band1 hT ht h1 h2, List.nil_append]
    have hb := tmod_bounds hT (st + nsteps dl 1 pass)
    exact schedFrom_band1 hT ht rest _ hb.1 hb.2

theorem hbInit_band1_pending {dl ps T : Int} :
    pendingPairs (hbInit dl 1 ps T) = [] := by
  rw [pendingPairs, hbInit, List.eq_nil_iff_forall_not_mem]
  intro p hp
  simp only [List.mem_flatten, List.mem_map] at hp
  obtain ⟨l, ⟨t, ht, rfl⟩, hp⟩ := hp
  have hT : 0 < T := by
    simp only [List.mem_range] at ht
    omega
  rw [threadSchedule, schedFrom_band1 hT (by omega) _ 0 (by omega) (by omega)] at hp
  exact absurd hp (List.not_mem_nil p)

theorem no_step_of_pending_nil {dl band : Int} {st st2 : HbState}
    (h : pendingPairs st = []) (hstep : HbRunStep dl band st st2) : False := by
  rcases hstep with ⟨p, pre, post, rest, k, s, ev, -, -⟩
  have hmem : (k, s) ∈ pendingPairs ⟨p, pre ++ ((k, s) :: rest) :: post, ev⟩ := by
    simp [pendingPairs, List.flatten_append]
  rw [h] at hmem
  exact absurd hmem (List.not_mem_nil _)

/-- Claim C4: invoked with `band = 1` (a matrix already in tridiagonal
form), the bulge-chasing pipeline performs zero steps: every thread's
schedule is empty, so the only reachable state is the initial one, no
`(sweep, step)` pair ever executes, and hence `hb2td_step` — the only code
that touches `A` or the reflector store — is never invoked: `A` is left
unchanged. -/
theorem hb2td_band1_zero_steps (n T : Int) (st : HbState)
    (hreach : HbReach n 1 (ceildiv T 3) T st) :
    pendingPairs (hbInit n 1 (ceildiv T 3) T) = [] ∧
      st = hbInit n 1 (ceildiv T 3) T ∧ st.events = [] := by
  have hnil := @hbInit_band1_pending n (ceildiv T 3) T
  rcases Relation.ReflTransGen.cases_head hreach with heq | ⟨c, hc, -⟩
  · exact ⟨hnil, heq.symm, by rw [← heq]; rfl⟩
  · exact absurd hc (fun hstep => no_step_of_pending_nil hnil hstep)

theorem hb2td_band1_zero_steps_witness :
    pendingPairs (hbInit 6 1 (ceildiv 2 3) 2) = [] ∧
      hbInit 6 1 (ceildiv 2 3) 2 = hbInit 6 1 (ceildiv 2 3) 2 ∧
      (hbInit 6 1 (ceildiv 2 3) 2).events = [] :=
  hb2td_band1_zero_steps 6 2 _ Relation.ReflTransGen.refl

/-! ### unmlq: assertions, empty-share no-op, workspace lifetime -/

theorem mem_intRange {a n : Int} : a ∈ intRange n ↔ 0 ≤ a ∧ a < n := by
  rw [intRange]
  simp only [List.mem_map, List.mem_range]
  constructor
  · rintro ⟨i, hi, rfl⟩
    omega
  · rintro ⟨h1, h2⟩
    exact ⟨a.toNat, by omega, by omega⟩

theorem rowIndices_head_bounds {mt nt : Int} {isLocal : Int → Int → Bool}
    {first : Int} {rest : List Int}
    (h : rowIndices mt nt isLocal = first :: rest) : 0 ≤ first ∧ first < mt := by
  have hmem : first ∈ rowIndices mt nt isLocal := by
    rw [h]; exact List.mem_cons_self _ _
  rw [rowIndices, List.mem_filter] at hmem
  exact mem_intRange.mp hmem.1

theorem colIndices_head_bounds {mt nt : Int} {isLocal : Int → Int → Bool}
    {first : Int} {rest : List Int}
    (h : colIndices mt nt isLocal = first :: rest) : 0 ≤ first ∧ first < nt := by
  have hmem : first ∈ colIndices mt nt isLocal := by
    rw [h]; exact List.mem_cons_self _ _
  rw [colIndices, List.mem_filter] at hmem
  exact mem_intRange.mp hmem.1

theorem rowIndices_nil {mt nt : Int} {isLocal : Int → Int → Bool}
    (hnl : ∀ i j, 0 ≤ i → i < mt → 0 ≤ j → j < nt → isLocal i j = false) :
    rowIndices mt nt isLocal = [] := by
  rw [rowIndices, List.filter_eq_nil_iff]
  intro a ha
  obtain ⟨ha1, ha2⟩ := mem_intRange.mp ha
  simp only [List.any_eq_true, not_exists, not_and]
  intro j hj
  obtain ⟨hj1, hj2⟩ := mem_intRange.mp hj
  simp [hnl a j ha1 ha2 hj1 hj2]

theorem colIndices_nil {mt nt : Int} {isLocal : Int → Int → Bool}
    (hnl : ∀ i j, 0 ≤ i → i < mt → 0 ≤ j → j < nt → isLocal i j = false) :
    colIndices mt nt isLocal = [] := by
  rw [colIndices, List.filter_eq_nil_iff]
  intro a ha
  obtain ⟨ha1, ha2⟩ := mem_intRange.mp ha
  simp only [List.any_eq_true, not_exists, not_and]
  intro i hi
  obtain ⟨hi1, hi2⟩ := mem_intRange.mp hi
  simp [hnl i a hi1 hi2 ha1 ha2]

theorem runW_nil (ts : List (Int × Int)) : runW [] ts = ts := rfl

theorem runW_cons (e : UEffect) (l : List UEffect) (ts : List (Int × Int)) :
    runW (e :: l) ts = runW l (applyWTiles ts e) := rfl

theorem runW_append (l1 l2 : List UEffect) (ts : List (Int × Int)) :
    runW (l1 ++ l2) ts = runW l2 (runW l1 ts) := by
  rw [runW, runW, runW, List.foldl_append]

theorem applyWTiles_fetchC (ts : List (Int × Int)) (a b c d : Int) :
    applyWTiles ts (UEffect.fetchC a b c d) = ts := rfl

theorem applyWTiles_writeW (ts : List (Int × Int)) (a b c d : Int) :
    applyWTiles ts (UEffect.writeW a b c d) = ts := rfl

theorem applyWTiles_writeC (ts : List (Int × Int)) (a b c d : Int) :
    applyWTiles ts (UEffect.writeC a b c d) = ts := rfl

theorem runW_const_writes (a b c d : Int) :
    ∀ (l : List Int) (ts : List (Int × Int)),
      runW (l.map (fun _ => UEffect.writeW a b c d)) ts = ts
  | [], _ => rfl
  | _ :: l, ts => by
    rw [List.map_cons, runW_cons, applyWTiles_writeW]
    exact runW_const_writes a b c d l ts

theorem runW_insertRow_subset (first : Int) :
    ∀ (locs : List Int) (ts : List (Int × Int)),
      runW (locs.map (fun j => UEffect.insertW first j)) ts ⊆
        ts ++ locs.map (fun j => (first, j))
  | [], ts => by simp [runW]
  | l :: ls, ts => by
    rw [List.map_cons, runW_cons]
    intro x hx
    have hsub := runW_insertRow_subset first ls
      (applyWTiles ts (UEffect.insertW first l)) hx
    rw [List.mem_append] at hsub
    rcases hsub with h | h
    · rw [applyWTiles] at h
      split at h
      · simp only [List.map_cons, List.mem_append, List.mem_cons]
        exact Or.inl h
      · rw [List.mem_append, List.mem_singleton] at h
        simp only [List.map_cons, List.mem_append, List.mem_cons]
        rcases h with h | h
        · exact Or.inl h
        · exact Or.inr (Or.inl h)
    · simp only [List.map_cons, List.mem_append, List.mem_cons]
      exact Or.inr (Or.inr h)

theorem runW_eraseRow_nil (first : Int) :
    ∀ (locs : List Int) (ts : List (Int × Int)),
      (∀ p ∈ ts, p.1 = first ∧ p.2 ∈ locs) →
      runW (locs.map (fun j => UEffect.eraseW first j)) ts = []
  | [], ts, h => by
    rw [List.map_nil, runW_nil]
    refine List.eq_nil_iff_forall_not_mem.mpr fun p hp => ?_
    exact absurd (h p hp).2 (List.not_mem_nil _)
  | l :: ls, ts, h => by
    rw [List.map_cons, runW_cons]
    refine runW_eraseRow_nil first ls _ fun p hp => ?_
    rw [applyWTiles, List.mem_filter, decide_eq_true_eq] at hp
    obtain ⟨hpts, hpne⟩ := hp
    obtain ⟨h1, h2⟩ := h p hpts
    refine ⟨h1, ?_⟩
    rcases List.mem_cons.mp h2 with he | he
    · exact absurd (Prod.ext h1 he) hpne
    · exact he

theorem runW_insertCol_subset (first : Int) :
    ∀ (locs : List Int) (ts : List (Int × Int)),
      runW (locs.map (fun i => UEffect.insertW i first)) ts ⊆
        ts ++ locs.map (fun i => (i, first))
  | [], ts => by simp [runW]
  | l :: ls, ts => by
    rw [List.map_cons, runW_cons]
    intro x hx
    have hsub := runW_insertCol_subset first ls
      (applyWTiles ts (UEffect.insertW l first)) hx
    rw [List.mem_append] at hsub
    rcases hsub with h | h
    · rw [applyWTiles] at h
      split at h
      · simp only [List.map_cons, List.mem_append, List.mem_cons]
        exact Or.inl h
      · rw [List.mem_append, List.mem_singleton] at h
        simp only [List.map_cons, List.mem_append, List.mem_cons]
        rcases h with h | h
        · exact Or.inl h
        · exact Or.inr (Or.inl h)
    · simp only [List.map_cons, List.mem_append, List.mem_cons]
      exact Or.inr (Or.inr h)

theorem runW_eraseCol_nil (first : Int) :
    ∀ (locs : List Int) (ts : List (Int × Int)),
      (∀ p ∈ ts, p.2 = first ∧ p.1 ∈ locs) →
      runW (locs.map (fun i => UEffect.eraseW i first)) ts = []
  | [], ts, h => by
    rw [List.map_nil, runW_nil]
    refine List.eq_nil_iff_forall_not_mem.mpr fun p hp => ?_
    exact absurd (h p hp).2 (List.not_mem_nil _)
  | l :: ls, ts, h => by
    rw [List.map_cons, runW_cons]
    refine runW_eraseCol_nil first ls _ fun p hp => ?_
    rw [applyWTiles, List.mem_filter, decide_eq_true_eq] at hp
    obtain ⟨hpts, hpne⟩ := hp
    obtain ⟨h1, h2⟩ := h p hpts
    refine ⟨h1, ?_⟩
    rcases List.mem_cons.mp h2 with he | he
    · exact absurd (Prod.ext he h1) hpne
    · exact he

/-- Claim C6: a call to `unmlq` in which the calling rank owns no local tile
of `C` returns immediately as a pure no-op: the effect list is empty — `C`,
`W`, `V` and `T` are untouched, no workspace tile is inserted — and no
error is raised (the result is `some`, not an assertion failure). -/
theorem unmlq_no_local_tiles_noop (side : USide) (mt nt vmt vnt wmt wnt vmb : Int)
    (vnb : Int → Int) (isLocal : Int → Int → Bool)
    (hpre : unmlqPre side mt nt vmt vnt wmt wnt)
    (hnl : ∀ i j, 0 ≤ i → i < mt → 0 ≤ j → j < nt → isLocal i j = false) :
    unmlqModel side mt nt vmt vnt wmt wnt vmb vnb isLocal = some [] := by
  obtain ⟨h1, h2, h3, h4, h5, h6, h7⟩ := hpre
  cases side with
  | left =>
    rw [unmlqModel, if_neg (not_not_intro h1), if_neg (not_not_intro h2),
      if_neg (not_not_intro h3), if_neg (not_not_intro h4),
      if_neg (not_not_intro h5)]
    rw [if_neg (not_not_intro (h6 rfl)), rowIndices_nil hnl]
    rfl
  | right =>
    rw [unmlqModel, if_neg (not_not_intro h1), if_neg (not_not_intro h2),
      if_neg (not_not_intro h3), if_neg (not_not_intro h4),
      if_neg (not_not_intro h5)]
    rw [if_neg (not_not_intro (h7 rfl)), colIndices_nil hnl]
    rfl

theorem unmlq_no_local_tiles_noop_witness :
    (unmlqPre USide.left 1 1 1 1 1 1 ∧
      ∀ i j : Int, 0 ≤ i → i < 1 → 0 ≤ j → j < 1 →
        (fun (_ : Int) (_ : Int) => false) i j = false) ∧
    unmlqModel USide.left 1 1 1 1 1 1 1 (fun _ => 1)
      (fun (_ : Int) (_ : Int) => false) = some [] :=
  ⟨⟨by decide, fun _ _ _ _ _ _ => rfl⟩,
   unmlq_no_local_tiles_noop USide.left 1 1 1 1 1 1 1 (fun _ => 1)
     (fun _ _ => false) (by decide) (fun _ _ _ _ _ _ => rfl)⟩

/-- Claim C5, counterexample: the claim reads the right-case precondition as
`V` spanning exactly one block-column (of block extent matching `C`'s
tile-column count).  The assertions accept a call in which `V` spans two
block-columns (`V.mt() = 1`, `V.nt() = C.nt() = 2`), so the asserted
predicate is not the claimed one. -/
theorem unmlq_claimed_shape_check_cex :
    (unmlqModel USide.right 1 2 1 2 1 2 1 (fun _ => 1) (fun _ _ => true)).isSome
        = true ∧
      ¬ unmlqClaimedPre USide.right 1 2 1 2 1 2 := by
  exact ⟨by decide, by decide⟩

/-- Claim C5, amended: `unmlq` enforces by fatal assertion exactly that `C`
has at least one tile-row and one tile-column (`mt ≥ 1`, `nt ≥ 1`), that `V`
spans exactly one block-row (`V.mt() == 1`) whose tile-column count matches
`C`'s tile-row count in the left case (`V.nt() == mt`) and `C`'s tile-column
count in the right case (`V.nt() == nt`), and that `W`'s tile grid equals
`C`'s (`W.mt() == mt`, `W.nt() == nt`); the call proceeds past its
assertions if and only if these hold. -/
theorem unmlq_asserts_iff (side : USide) (mt nt vmt vnt wmt wnt vmb : Int)
    (vnb : Int → Int) (isLocal : Int → Int → Bool) :
    (unmlqModel side mt nt vmt vnt wmt wnt vmb vnb isLocal).isSome = true ↔
      unmlqPre side mt nt vmt vnt wmt wnt := by
  constructor
  · intro h
    cases side with
    | left =>
      rw [unmlqModel] at h
      by_cases h1 : 1 ≤ mt
      rotate_left
      · rw [if_pos h1] at h; exact absurd h (by simp)
      rw [if_neg (not_not_intro h1)] at h
      by_cases h2 : 1 ≤ nt
      rotate_left
      · rw [if_pos h2] at h; exact absurd h (by simp)
      rw [if_neg (not_not_intro h2)] at h
      by_cases h3 : vmt = 1
      rotate_left
      · rw [if_pos h3] at h; exact absurd h (by simp)
      rw [if_neg (not_not_intro h3)] at h
      by_cases h4 : wmt = mt
      rotate_left
      · rw [if_pos h4] at h; exact absurd h (by simp)
      rw [if_neg (not_not_intro h4)] at h
      by_cases h5 : wnt = nt
      rotate_left
      · rw [if_pos h5] at h; exact absurd h (by simp)
      rw [if_neg (not_not_intro h5)] at h
      by_cases h6 : vnt = mt
      rotate_left
      · rw [if_pos h6] at h; exact absurd h (by simp)
      exact ⟨h1, h2, h3, h4, h5, fun _ => h6, by simp⟩
    | right =>
      rw [unmlqModel] at h
      by_cases h1 : 1 ≤ mt
      rotate_left
      · rw [if_pos h1] at h; exact absurd h (by simp)
      rw [if_neg (not_not_intro h1)] at h
      by_cases h2 : 1 ≤ nt
      rotate_left
      · rw [if_pos h2] at h; exact absurd h (by simp)
      rw [if_neg (not_not_intro h2)] at h
      by_cases h3 : vmt = 1
      rotate_left
      · rw [if_pos h3] at h; exact absurd h (by simp)
      rw [if_neg (not_not_intro h3)] at h
      by_cases h4 : wmt = mt
      rotate_left
      · rw [if_pos h4] at h; exact absurd h (by simp)
      rw [if_neg (not_not_intro h4)] at h
      by_cases h5 : wnt = nt
      rotate_left
      · rw [if_pos h5] at h; exact absurd h (by simp)
      rw [if_neg (not_not_intro h5)] at h
      by_cases h7 : vnt = nt
      rotate_left
      · rw [if_pos h7] at h; exact absurd h (by simp)
      exact ⟨h1, h2, h3, h4, h5, by simp, fun _ => h7⟩
  · rintro ⟨h1, h2, h3, h4, h5, h6, h7⟩
    cases side with
    | left =>
      rw [unmlqModel, if_neg (not_not_intro h1), if_neg (not_not_intro h2),
        if_neg (not_not_intro h3), if_neg (not_not_intro h4),
        if_neg (not_not_intro h5), if_neg (not_not_intro (h6 rfl))]
      cases hrows : rowIndices mt nt isLocal with
      | nil => rfl
      | cons first rest =>
        obtain ⟨hf0, hfm⟩ := rowIndices_head_bounds hrows
        simp only [List.length_cons, List.headD_cons]
        rw [if_neg (by omega), if_neg (not_not_intro hfm), if_neg (not_not_intro hf0)]
        rfl
    | right =>
      rw [unmlqModel, if_neg (not_not_intro h1), if_neg (not_not_intro h2),
        if_neg (not_not_intro h3), if_neg (not_not_intro h4),
        if_neg (not_not_intro h5), if_neg (not_not_intro (h7 rfl))]
      cases hcols : colIndices mt nt isLocal with
      | nil => rfl
      | cons first rest =>
        obtain ⟨hf0, hfn⟩ := colIndices_head_bounds hcols
        simp only [List.length_cons, List.headD_cons]
        rw [if_neg (by omega), if_neg (not_not_intro hfn), if_neg (not_not_intro hf0)]
        rfl

theorem runW_if_writeW (c : Prop) [Decidable c] (a b d e : Int)
    (ts : List (Int × Int)) :
    runW (if c then [UEffect.writeW a b d e] else []) ts = ts := by
  split
  · rw [runW_cons, applyWTiles_writeW, runW_nil]
  · rw [runW_nil]

theorem runW_if_writeC (c : Prop) [Decidable c] (a b d e : Int)
    (ts : List (Int × Int)) :
    runW (if c then [UEffect.writeC a b d e] else []) ts = ts := by
  split
  · rw [runW_cons, applyWTiles_writeC, runW_nil]
  · rw [runW_nil]

theorem runW_if_writeC2 (c : Prop) [Decidable c] (a b d e : Int)
    (ts : List (Int × Int)) :
    runW (if c then [] else [UEffect.writeC a b d e]) ts = ts := by
  split
  · rw [runW_nil]
  · rw [runW_cons, applyWTiles_writeC, runW_nil]

theorem insertW_not_mem_if_writeW {i j : Int} (c : Prop) [Decidable c]
    (a b d e : Int) :
    UEffect.insertW i j ∉ (if c then [UEffect.writeW a b d e] else []) := by
  split <;> simp

theorem insertW_not_mem_if_writeC {i j : Int} (c : Prop) [Decidable c]
    (a b d e : Int) :
    UEffect.insertW i j ∉ (if c then [UEffect.writeC a b d e] else []) := by
  split <;> simp

theorem insertW_not_mem_if_writeC2 {i j : Int} (c : Prop) [Decidable c]
    (a b d e : Int) :
    UEffect.insertW i j ∉ (if c then [] else [UEffect.writeC a b d e]) := by
  split <;> simp

/-- Claim C9: on every return from `unmlq` that passed its assertions, all
workspace tiles inserted into `W` during the call have been erased: local
tiles are inserted only into the single block-row (left case) or
block-column (right case) of `W` at index `first`, and the final loop erases
every local tile of that row/column, so `W` holds no live workspace tile
after the call. -/
theorem unmlq_workspace_all_erased (side : USide) (mt nt vmt vnt wmt wnt vmb : Int)
    (vnb : Int → Int) (isLocal : Int → Int → Bool)
    (hpre : unmlqPre side mt nt vmt vnt wmt wnt) :
    ∃ effs, unmlqModel side mt nt vmt vnt wmt wnt vmb vnb isLocal = some effs ∧
      runW effs [] = [] ∧
      ∀ i j, UEffect.insertW i j ∈ effs →
        (side = USide.left → i = (rowIndices mt nt isLocal).headD 0) ∧
        (side = USide.right → j = (colIndices mt nt isLocal).headD 0) := by
  obtain ⟨h1, h2, h3, h4, h5, h6, h7⟩ := hpre
  cases side with
  | left =>
    rw [unmlqModel, if_neg (not_not_intro h1), if_neg (not_not_intro h2),
      if_neg (not_not_intro h3), if_neg (not_not_intro h4),
      if_neg (not_not_intro h5), if_neg (not_not_intro (h6 rfl))]
    cases hrows : rowIndices mt nt isLocal with
    | nil => exact ⟨[], rfl, rfl, by simp⟩
    | cons first rest =>
      obtain ⟨hf0, hfm⟩ := rowIndices_head_bounds hrows
      simp only [List.length_cons, List.headD_cons]
      rw [if_neg (by omega), if_neg (not_not_intro hfm), if_neg (not_not_intro hf0)]
      refine ⟨_, rfl, ?_, ?_⟩
      · simp only [runW_append, runW_cons, runW_nil, applyWTiles_fetchC,
          applyWTiles_writeW, applyWTiles_writeC, runW_if_writeW,
          runW_if_writeC, runW_if_writeC2, runW_const_writes]
        refine runW_eraseRow_nil first _ _ fun p hp => ?_
        have hsub := runW_insertRow_subset first
          ((intRange nt).filter (fun j => isLocal first j)) [] hp
        rw [List.nil_append, List.mem_map] at hsub
        obtain ⟨j, hj, rfl⟩ := hsub
        exact ⟨rfl, hj⟩
      · intro i j hmem
        simp [insertW_not_mem_if_writeW, insertW_not_mem_if_writeC,
          insertW_not_mem_if_writeC2] at hmem
        obtain ⟨-, hfi⟩ := hmem
        exact ⟨fun _ => hfi.symm, fun hcon => absurd hcon (by decide)⟩
  | right =>
    rw [unmlqModel, if_neg (not_not_intro h1), if_neg (not_not_intro h2),
      if_neg (not_not_intro h3), if_neg (not_not_intro h4),
      if_neg (not_not_intro h5), if_neg (not_not_intro (h7 rfl))]
    cases hcols : colIndices mt nt isLocal with
    | nil => exact ⟨[], rfl, rfl, by simp⟩
    | cons first rest =>
      obtain ⟨hf0, hfn⟩ := colIndices_head_bounds hcols
      simp only [List.length_cons, List.headD_cons]
      rw [if_neg (by omega), if_neg (not_not_intro hfn), if_neg (not_not_intro hf0)]
      refine ⟨_, rfl, ?_, ?_⟩
      · simp only [runW_append, runW_cons, runW_nil, applyWTiles_fetchC,
          applyWTiles_writeW, applyWTiles_writeC, runW_if_writeW,
          runW_if_writeC, runW_if_writeC2, runW_const_writes]
        refine runW_eraseCol_nil first _ _ fun p hp => ?_
        have hsub := runW_insertCol_subset first
          ((intRange mt).filter (fun i => isLocal i first)) [] hp
        rw [List.nil_append, List.mem_map] at hsub
        obtain ⟨i, hi, rfl⟩ := hsub
        exact ⟨rfl, hi⟩
      · intro i j hmem
        simp [insertW_not_mem_if_writeW, insertW_not_mem_if_writeC,
          insertW_not_mem_if_writeC2] at hmem
        obtain ⟨i2, -, -, hfj⟩ := hmem
        exact ⟨fun hcon => absurd hcon (by decide), fun _ => hfj.symm⟩

theorem unmlq_workspace_all_erased_witness :
    unmlqPre USide.left 1 1 1 1 1 1 ∧
    (∃ effs, unmlqModel USide.left 1 1 1 1 1 1 1 (fun _ => 1)
        (fun _ _ => true) = some effs ∧
      runW effs [] = [] ∧
      ∀ i j, UEffect.insertW i j ∈ effs →
        (USide.left = USide.left →
          i = (rowIndices 1 1 (fun _ _ => true)).headD 0) ∧
        (USide.left = USide.right →
          j = (colIndices 1 1 (fun _ _ => true)).headD 0)) :=
  ⟨by decide,
   unmlq_workspace_all_erased USide.left 1 1 1 1 1 1 1 (fun _ => 1)
     (fun _ _ => true) (by decide)⟩

end Slate
